import Mathlib

/-!
Verification of the schedule-text parser and date-inference core of
`scrape.py` (Multimedios programming page → XMLTV).

The Python source is shallowly embedded:

* `date` objects are `Date` records (proleptic Gregorian; Python's
  `date.toordinal` arithmetic is modelled by a days-since-1970-01-01
  rata-die number via the standard civil-from-days / days-from-civil
  algorithms).  Python's `//` and `%` on ints are floor division and
  nonnegative remainder, exactly Lean's `Int` `/` and `%`.
* timezone-aware `datetime` values produced by the parser always carry the
  single configured zone (`TZ`) and have `second = microsecond = 0`, so
  comparison, equality and `+ timedelta(days=1)` reduce to their naive
  field-wise counterparts; a `DateTime` carries the date as its ordinal
  (`day`) plus hour and minute.
* `re` patterns `SECTION_RE` and `TIME_RE` are embedded as executable
  character-list matchers (`sectionSearch` models `SECTION_RE.search`,
  `timeMatch` models `TIME_RE.match`).  `\d` and `\s` are modelled as
  ASCII digits / whitespace, which is what the scraped pages contain.
* code that can raise `ValueError` (the `time(hh, mm)` constructor) is
  embedded in `Except ValueErr`.
-/

/-- Gregorian leap-year test, as in Python's `calendar`/`datetime`. -/
def isLeap (y : Int) : Bool :=
  y % 4 == 0 && (y % 100 != 0 || y % 400 == 0)

/-- Number of days in month `m` of year `y` (0 for an out-of-range month). -/
def daysInMonth (y m : Int) : Int :=
  if m = 2 then (if isLeap y then 29 else 28)
  else if m = 4 ∨ m = 6 ∨ m = 9 ∨ m = 11 then 30
  else if 1 ≤ m ∧ m ≤ 12 then 31
  else 0

/-- A Python `datetime.date`: year, month, day fields. -/
@[ext] structure Date where
  year : Int
  month : Int
  day : Int
deriving DecidableEq, Repr

/-- The `date(y, m, d)` constructor: `some` on a valid calendar date,
`none` where Python raises `ValueError`.  (Python additionally restricts
years to 1..9999; the claims only involve ordinary contemporary dates, so
we model the unbounded proleptic calendar.) -/
def mkDate (y m d : Int) : Option Date :=
  if 1 ≤ m ∧ m ≤ 12 ∧ 1 ≤ d ∧ d ≤ daysInMonth y m then some ⟨y, m, d⟩ else none

/-- Days since 1970-01-01 (a shifted `date.toordinal`); the standard
days-from-civil calculation. -/
def Date.toRd (dt : Date) : Int :=
  let y : Int := if dt.month ≤ 2 then dt.year - 1 else dt.year
  let era : Int := y / 400
  let yoe : Int := y - era * 400
  let mp : Int := (dt.month + 9) % 12
  let doy : Int := (153 * mp + 2) / 5 + dt.day - 1
  let doe : Int := yoe * 365 + yoe / 4 - yoe / 100 + doy
  era * 146097 + doe - 719468

/-- Inverse of `Date.toRd`; the standard civil-from-days calculation.
Models `date.fromordinal` / `date + timedelta`. -/
def Date.ofRd (z : Int) : Date :=
  let z' : Int := z + 719468
  let era : Int := z' / 146097
  let doe : Int := z' - era * 146097
  let yoe : Int := (doe - doe / 1460 + doe / 36524 - doe / 146096) / 365
  let y : Int := yoe + era * 400
  let doy : Int := doe - (365 * yoe + yoe / 4 - yoe / 100)
  let mp : Int := (5 * doy + 2) / 153
  let d : Int := doy - (153 * mp + 2) / 5 + 1
  let m : Int := if mp < 10 then mp + 3 else mp - 9
  ⟨if m ≤ 2 then y + 1 else y, m, d⟩

/-- Python's `date.weekday()`: Monday = 0 .. Sunday = 6
(1970-01-01 was a Thursday, weekday 3). -/
def Date.weekday (dt : Date) : Int := (dt.toRd + 3) % 7

/-- A `datetime.time` with `second = microsecond = 0`, as produced by
`time(hh, mm)`. -/
@[ext] structure Time where
  hour : Nat
  minute : Nat
deriving DecidableEq, Repr

/-- The `ValueError`s the `time(hour, minute)` constructor can raise. -/
inductive ValueErr where
  | hourOutOfRange
  | minuteOutOfRange
deriving DecidableEq, Repr

/-- Python's `time(hh, mm)`: validates `0 <= hh <= 23` then
`0 <= mm <= 59`, raising `ValueError` otherwise. -/
def mkTime (hh mm : Nat) : Except ValueErr Time :=
  if 23 < hh then .error .hourOutOfRange
  else if 59 < mm then .error .minuteOutOfRange
  else .ok ⟨hh, mm⟩

/-- A zone-aware `datetime` as built by the parser (seconds and
microseconds are always 0, the zone is always the configured `TZ`): the
date is carried as its ordinal (`Date.toRd`), so field-wise comparison,
equality and day arithmetic coincide with Python's. -/
@[ext] structure DateTime where
  day : Int
  hour : Nat
  minute : Nat
deriving DecidableEq, Repr

/-- `datetime.combine(current_date, pending_start_time).replace(tzinfo=TZ)`. -/
def combine (d : Date) (t : Time) : DateTime := ⟨d.toRd, t.hour, t.minute⟩

/-- Python `datetime` `<=` (field-wise lexicographic, equal zones). -/
def dtLE (a b : DateTime) : Prop :=
  a.day < b.day ∨ (a.day = b.day ∧
    (a.hour < b.hour ∨ (a.hour = b.hour ∧ a.minute ≤ b.minute)))

/-- Python `datetime` `<` (field-wise lexicographic, equal zones). -/
def dtLT (a b : DateTime) : Prop :=
  a.day < b.day ∨ (a.day = b.day ∧
    (a.hour < b.hour ∨ (a.hour = b.hour ∧ a.minute < b.minute)))

instance (a b : DateTime) : Decidable (dtLE a b) := by
  unfold dtLE; exact inferInstance

instance (a b : DateTime) : Decidable (dtLT a b) := by
  unfold dtLT; exact inferInstance

/-- Lowercasing for the characters occurring in `SECTION_RE`'s classes;
models both `str.lower()` on the captured group and `re.IGNORECASE`. -/
def lowerChar (c : Char) : Char :=
  if 'A' ≤ c ∧ c ≤ 'Z' then Char.ofNat (c.toNat + 32)
  else if c = 'Á' then 'á'
  else if c = 'É' then 'é'
  else if c = 'Í' then 'í'
  else if c = 'Ó' then 'ó'
  else if c = 'Ú' then 'ú'
  else if c = 'Ñ' then 'ñ'
  else c

/-- `str.lower()` for the strings this program handles. -/
def strLower (s : String) : String := String.mk (s.toList.map lowerChar)

/-- The character class `[A-Za-zÁÉÍÓÚáéíóúñÑ]` of `SECTION_RE`. -/
def isSectionLetter (c : Char) : Bool :=
  ('A' ≤ c && c ≤ 'Z') || ('a' ≤ c && c ≤ 'z') ||
    c ∈ ['Á', 'É', 'Í', 'Ó', 'Ú', 'á', 'é', 'í', 'ó', 'ú', 'ñ', 'Ñ']

/-- Numeric value of an ASCII digit. -/
def digitVal (c : Char) : Int := Int.ofNat (c.toNat - 48)

/-- The literal `Programación` of `SECTION_RE`, lowercased. -/
def sectionKeyword : List Char := "programación".toList

/-- Attempt to match `SECTION_RE` = `Programación\s+de\s+([A-Za-zÁÉÍÓÚáéíóúñÑ]+)\s+(\d{1,2})`
(with `re.IGNORECASE`) at the start of `cs`; returns (group 1, `int` of
group 2).  The character classes of adjacent pieces are disjoint, so the
regex is deterministic and greedy matching is exact. -/
def matchSectionAt (cs : List Char) : Option (String × Int) :=
  if (cs.take sectionKeyword.length).map lowerChar = sectionKeyword then
    let r0 := cs.drop sectionKeyword.length
    match r0 with
    | w0 :: _ =>
      if w0.isWhitespace then
        let r1 := r0.dropWhile Char.isWhitespace
        match r1 with
        | d0 :: e0 :: r2 =>
          if lowerChar d0 = 'd' ∧ lowerChar e0 = 'e' then
            match r2 with
            | w1 :: _ =>
              if w1.isWhitespace then
                let r3 := r2.dropWhile Char.isWhitespace
                let grp := r3.takeWhile isSectionLetter
                if grp ≠ [] then
                  let r4 := r3.dropWhile isSectionLetter
                  match r4 with
                  | w2 :: _ =>
                    if w2.isWhitespace then
                      let r5 := r4.dropWhile Char.isWhitespace
                      match r5 with
                      | a :: rest =>
                        if a.isDigit then
                          match rest with
                          | b :: _ =>
                            if b.isDigit then
                              some (String.mk grp, 10 * digitVal a + digitVal b)
                            else
                              some (String.mk grp, digitVal a)
                          | [] => some (String.mk grp, digitVal a)
                        else none
                      | [] => none
                    else none
                  | [] => none
                else none
              else none
            | _ => none
          else none
        | _ => none
      else none
    | [] => none
  else none

/-- `SECTION_RE.search(ln)`: try `matchSectionAt` at every start position,
left to right. -/
def sectionSearchAux : List Char → Option (String × Int)
  | [] => none
  | c :: rest =>
    match matchSectionAt (c :: rest) with
    | some r => some r
    | none => sectionSearchAux rest

/-- `SECTION_RE.search(ln)` on a line, returning
(weekday-name group, day number). -/
def sectionSearch (s : String) : Option (String × Int) :=
  sectionSearchAux s.toList

/-- `TIME_RE.match(ln)` for `TIME_RE` = `^\s*(\d{2}:\d{2})\s*$`, returning
the two numbers of the `HH:MM` group (as computed by
`map(int, mt.group(1).split(":"))`). -/
def timeMatch (s : String) : Option (Nat × Nat) :=
  match s.toList.dropWhile Char.isWhitespace with
  | a :: b :: c :: d :: e :: rest =>
    if a.isDigit ∧ b.isDigit ∧ c = ':' ∧ d.isDigit ∧ e.isDigit ∧
        rest.all Char.isWhitespace then
      some (10 * (a.toNat - 48) + (b.toNat - 48),
            10 * (d.toNat - 48) + (e.toNat - 48))
    else none
  | _ => none

/-- The `WEEKDAY_ES` dictionary: Spanish weekday name → Python weekday. -/
def WEEKDAY_ES : List (String × Int) :=
  [("lunes", 0), ("martes", 1), ("miércoles", 2), ("miercoles", 2),
   ("jueves", 3), ("viernes", 4), ("sábado", 5), ("sabado", 5),
   ("domingo", 6)]

/-- Absolute day distance used as the sort key
`abs((d - today).days)` in `choose_date_for_section`. -/
def distToday (today d : Date) : Int := |d.toRd - today.toRd|

/-- The candidate list built by the `for month_offset in (-1, 0, 1)` loop of
`choose_date_for_section`: for each offset, `approx` is the first of
`today`'s month shifted by `31 * month_offset` days, a date with
`approx`'s year/month and day `target_day` is constructed (skipped when
`ValueError`), and kept only when its weekday is `target_weekday`. -/
def sectionCandidates (targetWeekday targetDay : Int) (today : Date) : List Date :=
  ([-1, 0, 1] : List Int).filterMap fun monthOffset =>
    let firstOfMonth : Date := ⟨today.year, today.month, 1⟩
    let approx : Date := Date.ofRd (firstOfMonth.toRd + 31 * monthOffset)
    match mkDate approx.year approx.month targetDay with
    | none => none
    | some d => if d.weekday = targetWeekday then some d else none

/-- The comparison underlying `candidates.sort(key=lambda d: abs((d - today).days))`. -/
def candLE (today : Date) (a b : Date) : Prop :=
  distToday today a ≤ distToday today b

instance (today : Date) : DecidableRel (candLE today) := fun a b => by
  unfold candLE; exact inferInstance

/-- `choose_date_for_section(target_weekday, target_day, today)`: pick the
candidate closest to `today` (Python's stable `list.sort` followed by
`candidates[0]`, embedded as a stable insertion sort; the `headD` default
is never used since the branch guarantees a non-empty list), falling back
to `today`'s month or `today` itself when no candidate matched. -/
def choose_date_for_section (targetWeekday targetDay : Int) (today : Date) : Date :=
  let candidates := sectionCandidates targetWeekday targetDay today
  if candidates.isEmpty then
    match mkDate today.year today.month targetDay with
    | some d => d
    | none => today
  else
    (List.insertionSort (candLE today) candidates).headD today

/-- A `Programme` dataclass instance. -/
@[ext] structure Programme where
  start : DateTime
  stop : DateTime
  title : String
deriving DecidableEq, Repr

/-- Sort comparison `key=lambda p: p.start` of the finalizer. -/
def startLE (p q : Programme) : Prop := dtLE p.start q.start

/-- Strict version of `startLE`. -/
def startLT (p q : Programme) : Prop := dtLT p.start q.start

instance : DecidableRel startLE := fun p q => by
  unfold startLE; exact inferInstance

instance : DecidableRel startLT := fun p q => by
  unfold startLT; exact inferInstance

/-- The filter `p.title and p.stop > p.start` (a Python `str` is truthy
exactly when non-empty). -/
def keepB (p : Programme) : Bool := decide (p.title ≠ "" ∧ dtLT p.start p.stop)

/-- `(last_start + timedelta(days=1)).replace(hour=0, minute=0, second=0,
microsecond=0)`: midnight of the next calendar day. -/
def rollover (dt : DateTime) : DateTime := ⟨dt.day + 1, 0, 0⟩

/-- The stop-assignment loop of `parse_schedule`: each entry's `stop`
becomes the next entry's `start`; the last entry's `stop` becomes the
midnight rollover. -/
def assignStops : List Programme → List Programme
  | [] => []
  | [p] => [{ p with stop := rollover p.start }]
  | p :: q :: rest => { p with stop := q.start } :: assignStops (q :: rest)

/-- The `(p.start, p.stop, p.title)` key used by the dedup loop. -/
def progKey (p : Programme) : DateTime × DateTime × String :=
  (p.start, p.stop, p.title)

/-- The dedup loop of `parse_schedule` (`seen` is the set of keys already
kept, modelled as a list). -/
def dedupAux (seen : List (DateTime × DateTime × String)) :
    List Programme → List Programme
  | [] => []
  | p :: rest =>
    if progKey p ∈ seen then dedupAux seen rest
    else p :: dedupAux (progKey p :: seen) rest

/-- The finalization pipeline of `parse_schedule` (lines 217-247): stable
sort by `start`, early return when empty, stop assignment, degeneracy
filter, dedup. -/
def finalize (ps : List Programme) : List Programme :=
  let sorted := List.insertionSort startLE ps
  if sorted.isEmpty then sorted
  else dedupAux [] ((assignStops sorted).filter keepB)

/-- The section-header handling of lines 178-186: look up the (lowercased)
weekday name; unknown names leave `current_date` unset, known names
resolve it via `choose_date_for_section`. -/
def resolveSection (wdName : String) (dayNum : Int) (today : Date) : Option Date :=
  match WEEKDAY_ES.lookup (strLower wdName) with
  | none => none
  | some wd => some (choose_date_for_section wd dayNum today)

/-- The title branch of the scanning loop (lines 199-213): reachable only
past the section and time branches.  A line is consumed as a title only
when both `current_date` and `pending_start_time` are set; the
`if (timeMatch ln).isSome` test is the defensive guard of lines 204-207
(skip the line, keeping the pending time, when the would-be title is
itself time-shaped).  Returns the updated (`current_date`,
`pending_start_time`) pair and the emitted programme, if any. -/
def titleStep (ln : String) (cur : Option Date) (pend : Option Time) :
    Option Date × Option Time × Option Programme :=
  match pend with
  | some t =>
    match cur with
    | some d =>
      if (timeMatch ln).isSome then
        (cur, pend, none)
      else
        (cur, none, some { start := combine d t, stop := combine d t,
                           title := ln })
    | none => (cur, pend, none)
  | none => (cur, pend, none)

/-- `titleStep` with the defensive guard of lines 204-207 removed. -/
def titleStepNoGuard (ln : String) (cur : Option Date) (pend : Option Time) :
    Option Date × Option Time × Option Programme :=
  match pend with
  | some t =>
    match cur with
    | some d =>
      (cur, none, some { start := combine d t, stop := combine d t,
                         title := ln })
    | none => (cur, pend, none)
  | none => (cur, pend, none)

/-- One iteration of the scanning loop of `parse_schedule` (lines
172-215) on line `ln`: section header, then time marker (only with an
active section), then the title branch.  Every branch of the Python loop
advances `i` by exactly one, so the loop processes lines sequentially. -/
def stepLine (today : Date) (ln : String) (cur : Option Date)
    (pend : Option Time) :
    Except ValueErr (Option Date × Option Time × Option Programme) :=
  match sectionSearch ln with
  | some (wdName, dayNum) =>
    -- new section header: resolve the date, clear the pending time
    .ok (resolveSection wdName dayNum today, none, none)
  | none =>
    match timeMatch ln with
    | some (hh, mm) =>
      match cur with
      | some _ =>
        -- time line inside an active section
        match mkTime hh mm with
        | .error e => .error e
        | .ok t => .ok (cur, some t, none)
      | none =>
        -- time-shaped line with no active section: fall through to the
        -- title branch (which requires current_date, absent here)
        .ok (titleStep ln cur pend)
    | none => .ok (titleStep ln cur pend)

/-- `stepLine` built on the guard-free title branch. -/
def stepLineNoGuard (today : Date) (ln : String) (cur : Option Date)
    (pend : Option Time) :
    Except ValueErr (Option Date × Option Time × Option Programme) :=
  match sectionSearch ln with
  | some (wdName, dayNum) =>
    .ok (resolveSection wdName dayNum today, none, none)
  | none =>
    match timeMatch ln with
    | some (hh, mm) =>
      match cur with
      | some _ =>
        match mkTime hh mm with
        | .error e => .error e
        | .ok t => .ok (cur, some t, none)
      | none =>
        .ok (titleStepNoGuard ln cur pend)
    | none => .ok (titleStepNoGuard ln cur pend)

/-- The scanning loop of `parse_schedule`: `stepLine` on each line in
order, threading `current_date` and `pending_start_time` and collecting
the appended programmes in order; a `ValueError` aborts the whole parse. -/
def parseLoop (today : Date) :
    List String → Option Date → Option Time → Except ValueErr (List Programme)
  | [], _, _ => .ok []
  | ln :: rest, cur, pend =>
    match stepLine today ln cur pend with
    | .error e => .error e
    | .ok (cur2, pend2, emitted) =>
      match parseLoop today rest cur2 pend2 with
      | .error e => .error e
      | .ok ps =>
        .ok (match emitted with | none => ps | some p => p :: ps)

/-- The scanning loop built on `stepLineNoGuard`. -/
def parseLoopNoGuard (today : Date) :
    List String → Option Date → Option Time → Except ValueErr (List Programme)
  | [], _, _ => .ok []
  | ln :: rest, cur, pend =>
    match stepLineNoGuard today ln cur pend with
    | .error e => .error e
    | .ok (cur2, pend2, emitted) =>
      match parseLoopNoGuard today rest cur2 pend2 with
      | .error e => .error e
      | .ok ps =>
        .ok (match emitted with | none => ps | some p => p :: ps)

/-- `parse_schedule` on the already-normalized line list (the output of
`extract_lines`), with the ambient `datetime.now(TZ).date()` passed as
`today`: the scanning loop followed by the finalization pipeline. -/
def parse_schedule (lines : List String) (today : Date) :
    Except ValueErr (List Programme) :=
  match parseLoop today lines none none with
  | .error e => .error e
  | .ok ps => .ok (finalize ps)

/-- `parse_schedule` built on the guard-free loop. -/
def parse_schedule_noguard (lines : List String) (today : Date) :
    Except ValueErr (List Programme) :=
  match parseLoopNoGuard today lines none none with
  | .error e => .error e
  | .ok ps => .ok (finalize ps)

/-- Unfolding lemma for `parseLoop` on the empty line list. -/
theorem parseLoop_nil (today : Date) (cur : Option Date) (pend : Option Time) :
    parseLoop today [] cur pend = .ok [] := rfl

/-- Unfolding lemma for `parseLoop` on a non-empty line list. -/
theorem parseLoop_cons (today : Date) (ln : String) (rest : List String)
    (cur : Option Date) (pend : Option Time) :
    parseLoop today (ln :: rest) cur pend =
      match stepLine today ln cur pend with
      | .error e => .error e
      | .ok (cur2, pend2, emitted) =>
        match parseLoop today rest cur2 pend2 with
        | .error e => .error e
        | .ok ps =>
          .ok (match emitted with | none => ps | some p => p :: ps) := rfl

/-- Unfolding lemma for `parseLoopNoGuard` on a non-empty line list. -/
theorem parseLoopNoGuard_cons (today : Date) (ln : String)
    (rest : List String) (cur : Option Date) (pend : Option Time) :
    parseLoopNoGuard today (ln :: rest) cur pend =
      match stepLineNoGuard today ln cur pend with
      | .error e => .error e
      | .ok (cur2, pend2, emitted) =>
        match parseLoopNoGuard today rest cur2 pend2 with
        | .error e => .error e
        | .ok ps =>
          .ok (match emitted with | none => ps | some p => p :: ps) := rfl

/-! ### Order lemmas for `DateTime` and `Programme` comparisons -/

theorem dtLE_total (a b : DateTime) : dtLE a b ∨ dtLE b a := by
  obtain ⟨x1, x2, x3⟩ := a; obtain ⟨y1, y2, y3⟩ := b
  simp only [dtLE]; omega

theorem dtLE_trans {a b c : DateTime} (h1 : dtLE a b) (h2 : dtLE b c) :
    dtLE a c := by
  obtain ⟨x1, x2, x3⟩ := a; obtain ⟨y1, y2, y3⟩ := b; obtain ⟨z1, z2, z3⟩ := c
  simp only [dtLE] at *; omega

theorem dtLT_trans {a b c : DateTime} (h1 : dtLT a b) (h2 : dtLT b c) :
    dtLT a c := by
  obtain ⟨x1, x2, x3⟩ := a; obtain ⟨y1, y2, y3⟩ := b; obtain ⟨z1, z2, z3⟩ := c
  simp only [dtLT] at *; omega

theorem dtLT_of_dtLT_of_dtLE {a b c : DateTime} (h1 : dtLT a b)
    (h2 : dtLE b c) : dtLT a c := by
  obtain ⟨x1, x2, x3⟩ := a; obtain ⟨y1, y2, y3⟩ := b; obtain ⟨z1, z2, z3⟩ := c
  simp only [dtLT, dtLE] at *; omega

theorem dt_eq_of_dtLE_of_not_dtLT {a b : DateTime} (h1 : dtLE a b)
    (h2 : ¬ dtLT a b) : a = b := by
  obtain ⟨x1, x2, x3⟩ := a; obtain ⟨y1, y2, y3⟩ := b
  simp only [dtLE, dtLT] at *
  simp only [DateTime.mk.injEq]
  omega

theorem dt_ne_of_dtLT {a b : DateTime} (h : dtLT a b) : a ≠ b := by
  obtain ⟨x1, x2, x3⟩ := a; obtain ⟨y1, y2, y3⟩ := b
  simp only [dtLT] at h
  simp only [ne_eq, DateTime.mk.injEq]
  omega

theorem dtLT_rollover (dt : DateTime) : dtLT dt (rollover dt) := by
  obtain ⟨x1, x2, x3⟩ := dt
  simp only [dtLT, rollover]
  omega

instance : IsTotal Programme startLE :=
  ⟨fun p q => dtLE_total p.start q.start⟩

instance : IsTrans Programme startLE :=
  ⟨fun _ _ _ h1 h2 => dtLE_trans h1 h2⟩

instance : IsTrans Programme startLT :=
  ⟨fun _ _ _ h1 h2 => dtLT_trans h1 h2⟩

/-! ### Structural lemmas about the finalization pipeline -/

theorem assignStops_map_start (l : List Programme) :
    (assignStops l).map Programme.start = l.map Programme.start := by
  induction l with
  | nil => rfl
  | cons p tl ih =>
    cases tl with
    | nil => rfl
    | cons q rest =>
      simpa [assignStops] using ih

theorem start_mem_of_mem_assignStops {l : List Programme} {p : Programme}
    (h : p ∈ assignStops l) : ∃ q ∈ l, p.start = q.start := by
  have hm : p.start ∈ (assignStops l).map Programme.start := List.mem_map_of_mem _ h
  rw [assignStops_map_start] at hm
  obtain ⟨q, hq, hqe⟩ := List.mem_map.mp hm
  exact ⟨q, hq, hqe.symm⟩

theorem title_mem_of_mem_assignStops {l : List Programme} {p : Programme}
    (h : p ∈ assignStops l) : ∃ q ∈ l, p.title = q.title := by
  induction l with
  | nil => simp [assignStops] at h
  | cons a tl ih =>
    cases tl with
    | nil =>
      simp only [assignStops, List.mem_singleton] at h
      exact ⟨a, List.mem_cons_self _ _, by simp [h]⟩
    | cons b rest =>
      simp only [assignStops, List.mem_cons] at h
      rcases h with h | h
      · exact ⟨a, List.mem_cons_self _ _, by simp [h]⟩
      · obtain ⟨q, hq, hqe⟩ := ih h
        exact ⟨q, List.mem_cons_of_mem _ hq, hqe⟩

theorem progKey_injective {p q : Programme} (h : progKey p = progKey q) :
    p = q := by
  obtain ⟨a1, a2, a3⟩ := p; obtain ⟨b1, b2, b3⟩ := q
  simp only [progKey, Prod.mk.injEq] at h
  simp [Programme.mk.injEq, h.1, h.2.1, h.2.2]

theorem mem_of_mem_dedupAux {seen : List (DateTime × DateTime × String)}
    {l : List Programme} {p : Programme} (h : p ∈ dedupAux seen l) : p ∈ l := by
  induction l generalizing seen with
  | nil => exact h
  | cons a tl ih =>
    simp only [dedupAux] at h
    by_cases hk : progKey a ∈ seen
    · simp only [if_pos hk] at h
      exact List.mem_cons_of_mem _ (ih h)
    · simp only [if_neg hk, List.mem_cons] at h
      rcases h with h | h
      · exact h ▸ List.mem_cons_self _ _
      · exact List.mem_cons_of_mem _ (ih h)

theorem dedupAux_eq_self {seen : List (DateTime × DateTime × String)}
    {l : List Programme} (hseen : ∀ p ∈ l, progKey p ∉ seen)
    (hpw : l.Pairwise (fun a b => a ≠ b)) : dedupAux seen l = l := by
  induction l generalizing seen with
  | nil => rfl
  | cons a tl ih =>
    have ha : progKey a ∉ seen := hseen a (List.mem_cons_self _ _)
    rw [List.pairwise_cons] at hpw
    simp only [dedupAux, if_neg ha]
    congr 1
    refine ih (fun p hp => ?_) hpw.2
    simp only [List.mem_cons, not_or]
    refine ⟨fun hkey => ?_, hseen p (List.mem_cons_of_mem _ hp)⟩
    exact hpw.1 p hp (progKey_injective hkey).symm

theorem dtLE_refl (a : DateTime) : dtLE a a := by
  obtain ⟨x1, x2, x3⟩ := a
  unfold dtLE; omega

theorem dtLE_of_dtLT {a b : DateTime} (h : dtLT a b) : dtLE a b := by
  obtain ⟨x1, x2, x3⟩ := a; obtain ⟨y1, y2, y3⟩ := b
  simp only [dtLT, dtLE] at *; omega

theorem keepB_eq_true {p : Programme} :
    keepB p = true ↔ p.title ≠ "" ∧ dtLT p.start p.stop := by
  simp [keepB]

/-- Every element of `q :: rest` has a start `≥ q.start` when the list is
sorted. -/
theorem le_start_of_sorted {q : Programme} {rest : List Programme}
    (hs : List.Sorted startLE (q :: rest)) :
    ∀ w ∈ q :: rest, dtLE q.start w.start := by
  intro w hw
  rcases List.mem_cons.mp hw with h | h
  · subst h; exact dtLE_refl _
  · exact (List.sorted_cons.mp hs).1 w h

/-- After stop assignment and filtering, a sorted provisional list yields
strictly increasing starts. -/
theorem chainLT_filter_assign {l : List Programme}
    (hs : List.Sorted startLE l) :
    List.Chain' startLT ((assignStops l).filter keepB) := by
  induction l with
  | nil => simp [assignStops]
  | cons p tl ih =>
    cases tl with
    | nil =>
      rw [assignStops, List.filter_cons]
      cases hk : keepB { p with stop := rollover p.start } <;>
        simp [List.chain'_singleton]
    | cons q rest =>
      have hs' : List.Sorted startLE (q :: rest) := hs.of_cons
      have htl := ih hs'
      rw [assignStops, List.filter_cons]
      cases hk : keepB { p with stop := q.start } with
      | false => simpa using htl
      | true =>
        rw [if_pos rfl, List.chain'_cons']
        refine ⟨?_, htl⟩
        intro z hz
        have hzmem : z ∈ (assignStops (q :: rest)).filter keepB :=
          List.mem_of_mem_head? hz
        have hz2 : z ∈ assignStops (q :: rest) := (List.mem_filter.mp hzmem).1
        obtain ⟨w, hw, hwe⟩ := start_mem_of_mem_assignStops hz2
        have hple : dtLT p.start q.start := (keepB_eq_true.mp hk).2
        have hqw : dtLE q.start w.start := le_start_of_sorted hs' w hw
        show dtLT p.start z.start
        rw [hwe]
        exact dtLT_of_dtLT_of_dtLE hple hqw

/-- With non-empty titles, the head of the filtered list keeps the start
of the head of the provisional list (any dropped prefix has equal starts). -/
theorem head_filter_assign {l : List Programme}
    (hs : List.Sorted startLE l) (ht : ∀ p ∈ l, p.title ≠ "") :
    ∀ z ∈ ((assignStops l).filter keepB).head?,
      ∃ q ∈ l.head?, z.start = q.start := by
  induction l with
  | nil => simp [assignStops]
  | cons p tl ih =>
    cases tl with
    | nil =>
      intro z hz
      have hk : keepB { p with stop := rollover p.start } = true := by
        refine keepB_eq_true.mpr ⟨ht p (List.mem_cons_self _ _), ?_⟩
        exact dtLT_rollover p.start
      rw [assignStops, List.filter_cons, if_pos hk] at hz
      simp only [List.head?_cons, Option.mem_def, Option.some.injEq] at hz
      exact ⟨p, by simp, by rw [← hz]⟩
    | cons q rest =>
      intro z hz
      have hs' : List.Sorted startLE (q :: rest) := hs.of_cons
      have ht' : ∀ w ∈ q :: rest, w.title ≠ "" := fun w hw =>
        ht w (List.mem_cons_of_mem _ hw)
      rw [assignStops, List.filter_cons] at hz
      cases hk : keepB { p with stop := q.start } with
      | true =>
        rw [if_pos hk] at hz
        simp only [List.head?_cons, Option.mem_def, Option.some.injEq] at hz
        exact ⟨p, by simp, by rw [← hz]⟩
      | false =>
        rw [if_neg (by simp [hk])] at hz
        obtain ⟨w, hw, hwe⟩ := ih hs' ht' z hz
        simp only [List.head?_cons, Option.mem_def, Option.some.injEq] at hw
        have hpq : p.start = q.start := by
          have hle : dtLE p.start q.start :=
            (List.sorted_cons.mp hs).1 q (List.mem_cons_self _ _)
          have hnlt : ¬ dtLT p.start q.start := by
            intro hlt
            have : keepB { p with stop := q.start } = true :=
              keepB_eq_true.mpr ⟨ht p (List.mem_cons_self _ _), hlt⟩
            rw [this] at hk; cases hk
          exact dt_eq_of_dtLE_of_not_dtLT hle hnlt
        refine ⟨p, by simp, ?_⟩
        rw [hwe, ← hw, ← hpq]

/-- With non-empty titles, finalizing a non-empty provisional list cannot
produce an empty filtered list (the last entry always survives). -/
theorem filter_assign_ne_nil {l : List Programme}
    (hs : List.Sorted startLE l) (ht : ∀ p ∈ l, p.title ≠ "")
    (hne : l ≠ []) : (assignStops l).filter keepB ≠ [] := by
  induction l with
  | nil => exact absurd rfl hne
  | cons p tl ih =>
    cases tl with
    | nil =>
      have hk : keepB { p with stop := rollover p.start } = true := by
        refine keepB_eq_true.mpr ⟨ht p (List.mem_cons_self _ _), ?_⟩
        exact dtLT_rollover p.start
      rw [assignStops, List.filter_cons, if_pos hk]
      simp
    | cons q rest =>
      have hs' : List.Sorted startLE (q :: rest) := hs.of_cons
      have ht' : ∀ w ∈ q :: rest, w.title ≠ "" := fun w hw =>
        ht w (List.mem_cons_of_mem _ hw)
      have htl := ih hs' ht' (by simp)
      rw [assignStops, List.filter_cons]
      cases hk : keepB { p with stop := q.start } with
      | true => simp
      | false => simpa using htl

/-- With non-empty titles, the last surviving entry is the last provisional
entry, whose stop is the midnight rollover. -/
theorem getLast_filter_assign {l : List Programme}
    (hs : List.Sorted startLE l) (ht : ∀ p ∈ l, p.title ≠ "") :
    ∀ z, ((assignStops l).filter keepB).getLast? = some z →
      z.stop = rollover z.start := by
  induction l with
  | nil => intro z hz; simp [assignStops] at hz
  | cons p tl ih =>
    cases tl with
    | nil =>
      intro z hz
      have hk : keepB { p with stop := rollover p.start } = true := by
        refine keepB_eq_true.mpr ⟨ht p (List.mem_cons_self _ _), ?_⟩
        exact dtLT_rollover p.start
      rw [assignStops, List.filter_cons, if_pos hk] at hz
      simp only [List.filter_nil, List.getLast?_singleton, Option.some.injEq] at hz
      rw [← hz]
    | cons q rest =>
      intro z hz
      have hs' : List.Sorted startLE (q :: rest) := hs.of_cons
      have ht' : ∀ w ∈ q :: rest, w.title ≠ "" := fun w hw =>
        ht w (List.mem_cons_of_mem _ hw)
      have hne : (assignStops (q :: rest)).filter keepB ≠ [] :=
        filter_assign_ne_nil hs' ht' (by simp)
      rw [assignStops, List.filter_cons] at hz
      cases hk : keepB { p with stop := q.start } with
      | false =>
        rw [if_neg (by simp [hk])] at hz
        exact ih hs' ht' z hz
      | true =>
        rw [if_pos hk] at hz
        obtain ⟨f, fs, hffs⟩ := List.exists_cons_of_ne_nil hne
        rw [hffs, List.getLast?_cons_cons, ← hffs] at hz
        exact ih hs' ht' z hz

/-- With non-empty titles, consecutive surviving entries have no gap:
each entry's stop is the next surviving entry's start. -/
theorem chainStop_filter_assign {l : List Programme}
    (hs : List.Sorted startLE l) (ht : ∀ p ∈ l, p.title ≠ "") :
    List.Chain' (fun p q => p.stop = q.start)
      ((assignStops l).filter keepB) := by
  induction l with
  | nil => simp [assignStops]
  | cons p tl ih =>
    cases tl with
    | nil =>
      rw [assignStops, List.filter_cons]
      cases hk : keepB { p with stop := rollover p.start } <;>
        simp [List.chain'_singleton]
    | cons q rest =>
      have hs' : List.Sorted startLE (q :: rest) := hs.of_cons
      have ht' : ∀ w ∈ q :: rest, w.title ≠ "" := fun w hw =>
        ht w (List.mem_cons_of_mem _ hw)
      have htl := ih hs' ht'
      rw [assignStops, List.filter_cons]
      cases hk : keepB { p with stop := q.start } with
      | false => simpa using htl
      | true =>
        rw [if_pos rfl, List.chain'_cons']
        refine ⟨?_, htl⟩
        intro z hz
        obtain ⟨w, hw, hwe⟩ := head_filter_assign hs' ht' z hz
        simp only [List.head?_cons, Option.mem_def, Option.some.injEq] at hw
        show q.start = z.start
        rw [hwe, ← hw]

/-- The stop-assignment loop is the identity on a list that already has
the assigned shape: no gaps between consecutive entries and a rolled-over
last entry. -/
theorem assignStops_eq_self {l : List Programme}
    (hchain : List.Chain' (fun p q => p.stop = q.start) l)
    (hlast : ∀ z, l.getLast? = some z → z.stop = rollover z.start) :
    assignStops l = l := by
  induction l with
  | nil => rfl
  | cons p tl ih =>
    cases tl with
    | nil =>
      have hp : p.stop = rollover p.start := hlast p rfl
      rw [assignStops]
      obtain ⟨s, st, t⟩ := p
      simp only [List.cons.injEq, and_true]
      simp only [Programme.mk.injEq, true_and, and_true]
      exact hp.symm
    | cons q rest =>
      rw [List.chain'_cons] at hchain
      have hlast' : ∀ z, (q :: rest).getLast? = some z →
          z.stop = rollover z.start := by
        intro z hz
        exact hlast z (by rw [List.getLast?_cons_cons]; exact hz)
      rw [assignStops]
      congr 1
      · obtain ⟨s, st, t⟩ := p
        simp only [Programme.mk.injEq, true_and, and_true]
        exact hchain.1.symm
      · exact ih hchain.2 hlast'

/-- Strictly increasing starts make all `(start, stop, title)` keys
pairwise distinct. -/
theorem pairwise_ne_of_chainLT {F : List Programme}
    (h : List.Chain' startLT F) : F.Pairwise (fun a b => a ≠ b) := by
  have hpw : F.Pairwise startLT := List.chain'_iff_pairwise.mp h
  refine hpw.imp ?_
  intro a b hab heq
  exact dt_ne_of_dtLT hab (by rw [heq])

/-- The dedup pass removes nothing from a list with strictly increasing
starts. -/
theorem dedup_eq_self_of_chainLT {F : List Programme}
    (h : List.Chain' startLT F) : dedupAux [] F = F :=
  dedupAux_eq_self (by simp) (pairwise_ne_of_chainLT h)

/-- The finalization pipeline always returns exactly the filtered list:
the dedup pass is a no-op. -/
theorem finalize_eq_filter (ps : List Programme) :
    finalize ps =
      (assignStops (List.insertionSort startLE ps)).filter keepB := by
  unfold finalize
  cases hE : List.insertionSort startLE ps with
  | nil => simp [assignStops]
  | cons a tl =>
    simp only [List.isEmpty_cons, if_neg]
    have hsorted : List.Sorted startLE (a :: tl) := by
      rw [← hE]; exact List.sorted_insertionSort startLE ps
    simp only [Bool.false_eq_true, if_false]
    exact dedup_eq_self_of_chainLT (chainLT_filter_assign hsorted)

/-- Every finalized entry survived the degeneracy filter. -/
theorem keep_of_mem_finalize {ps : List Programme} {p : Programme}
    (h : p ∈ finalize ps) : p.title ≠ "" ∧ dtLT p.start p.stop := by
  rw [finalize_eq_filter] at h
  have hk := (List.mem_filter.mp h).2
  exact keepB_eq_true.mp hk

/-- A list with strictly increasing starts is sorted by start. -/
theorem sorted_of_chainLT {F : List Programme}
    (h : List.Chain' startLT F) : List.Sorted startLE F := by
  have hpw : F.Pairwise startLT := List.chain'_iff_pairwise.mp h
  exact hpw.imp fun hab => dtLE_of_dtLT hab

/-- Core idempotence: when no provisional entry has an empty title (the
data-model invariant for parser-produced entries), finalization is a
fixed point of itself. -/
theorem finalize_idem_core {ps : List Programme}
    (ht : ∀ p ∈ ps, p.title ≠ "") :
    finalize (finalize ps) = finalize ps := by
  have hsorted : List.Sorted startLE (List.insertionSort startLE ps) :=
    List.sorted_insertionSort startLE ps
  have ht' : ∀ p ∈ List.insertionSort startLE ps, p.title ≠ "" := fun p hp =>
    ht p ((List.perm_insertionSort startLE ps).mem_iff.mp hp)
  have hF := finalize_eq_filter ps
  set F := (assignStops (List.insertionSort startLE ps)).filter keepB with hFdef
  have hchainLT : List.Chain' startLT F := chainLT_filter_assign hsorted
  have hchainStop : List.Chain' (fun p q => p.stop = q.start) F :=
    chainStop_filter_assign hsorted ht'
  have hlast : ∀ z, F.getLast? = some z → z.stop = rollover z.start :=
    getLast_filter_assign hsorted ht'
  have hFsorted : List.Sorted startLE F := sorted_of_chainLT hchainLT
  have hsortF : List.insertionSort startLE F = F := hFsorted.insertionSort_eq
  rw [hF]
  calc finalize F
      = (assignStops (List.insertionSort startLE F)).filter keepB :=
        finalize_eq_filter F
    _ = (assignStops F).filter keepB := by rw [hsortF]
    _ = F.filter keepB := by rw [assignStops_eq_self hchainStop hlast]
    _ = F := List.filter_eq_self.mpr fun a ha =>
        (List.mem_filter.mp (hFdef ▸ ha)).2

/-- A programme emitted by `stepLine` takes its title from the consumed
line. -/
theorem stepLine_emit_title {today : Date} {ln : String} {cur cur2 : Option Date}
    {pend pend2 : Option Time} {prog : Programme}
    (h : stepLine today ln cur pend = .ok (cur2, pend2, some prog)) :
    prog.title = ln := by
  unfold stepLine at h
  have htitle : ∀ (c : Option Date) (pe : Option Time),
      titleStep ln c pe = (cur2, pend2, some prog) → prog.title = ln := by
    intro c pe hts
    unfold titleStep at hts
    cases pe with
    | none => simp at hts
    | some t =>
      cases c with
      | none => simp at hts
      | some d =>
        cases hguard : (timeMatch ln).isSome with
        | true => simp [hguard] at hts
        | false =>
          simp only [hguard, Bool.false_eq_true, if_false,
            Prod.mk.injEq, Option.some.injEq] at hts
          rw [← hts.2.2]
  cases hsec : sectionSearch ln with
  | some r =>
    obtain ⟨wdName, dayNum⟩ := r
    simp [hsec] at h
  | none =>
    simp only [hsec] at h
    cases htm : timeMatch ln with
    | some hm =>
      obtain ⟨hh, mm⟩ := hm
      simp only [htm] at h
      cases cur with
      | some d =>
        cases hmk : mkTime hh mm with
        | error e => simp [hmk] at h
        | ok t => simp [hmk] at h
      | none =>
        exact htitle _ _ (by injection h)
    | none =>
      simp only [htm] at h
      exact htitle _ _ (by injection h)

/-- The guarded and guard-free single-line steps agree everywhere: the
title branch is only ever reached on a line that does not match the time
pattern or with no active section, so its defensive guard never fires. -/
theorem stepLine_eq_noguard (today : Date) (ln : String) (cur : Option Date)
    (pend : Option Time) :
    stepLine today ln cur pend = stepLineNoGuard today ln cur pend := by
  unfold stepLine stepLineNoGuard
  cases hsec : sectionSearch ln with
  | some r => rfl
  | none =>
    cases htm : timeMatch ln with
    | some hm =>
      obtain ⟨hh, mm⟩ := hm
      cases cur with
      | some d => rfl
      | none =>
        simp only []
        unfold titleStep titleStepNoGuard
        cases pend <;> rfl
    | none =>
      simp only []
      unfold titleStep titleStepNoGuard
      cases pend with
      | none => rfl
      | some t =>
        cases cur with
        | none => rfl
        | some d =>
          simp only [htm, Option.isSome_none, Bool.false_eq_true, if_false]

/-- Every programme emitted by the scanning loop takes its title from an
input line, so non-blank input lines yield non-empty titles. -/
theorem parseLoop_titles {today : Date} {lines : List String}
    (hlines : ∀ l ∈ lines, l ≠ "") :
    ∀ cur pend ls, parseLoop today lines cur pend = .ok ls →
      ∀ p ∈ ls, p.title ≠ "" := by
  induction lines with
  | nil =>
    intro cur pend ls h p hp
    rw [parseLoop_nil] at h
    injection h with h2
    subst h2
    simp at hp
  | cons ln rest ih =>
    intro cur pend ls h p hp
    have hrest : ∀ l ∈ rest, l ≠ "" := fun l hl =>
      hlines l (List.mem_cons_of_mem _ hl)
    have hln : ln ≠ "" := hlines ln (List.mem_cons_self _ _)
    rw [parseLoop_cons] at h
    cases hstep : stepLine today ln cur pend with
    | error e => simp [hstep] at h
    | ok res =>
      obtain ⟨cur2, pend2, emitted⟩ := res
      simp only [hstep] at h
      cases hres : parseLoop today rest cur2 pend2 with
      | error e => simp [hres] at h
      | ok ps2 =>
        simp only [hres] at h
        cases emitted with
        | none =>
          injection h with h2
          subst h2
          exact ih hrest _ _ _ hres p hp
        | some prog =>
          injection h with h2
          subst h2
          rcases List.mem_cons.mp hp with hp1 | hp2
          · rw [hp1, stepLine_emit_title hstep]
            exact hln
          · exact ih hrest _ _ _ hres p hp2

/-- The defensive guard is dead code: the two scanning loops agree on
every line list and every parser state. -/
theorem parseLoop_eq_noguard (today : Date) (lines : List String) :
    ∀ cur pend,
      parseLoop today lines cur pend = parseLoopNoGuard today lines cur pend := by
  induction lines with
  | nil => intro cur pend; rfl
  | cons ln rest ih =>
    intro cur pend
    rw [parseLoop_cons, parseLoopNoGuard_cons, stepLine_eq_noguard]
    simp only [ih]

/-- Python's `list.sort` is stable, so the head of the sorted list is the
first element of the original list attaining the minimal key: if `x` is
no worse than everything after it and strictly better than everything
before it, the stable insertion sort puts `x` first. -/
theorem insertionSort_head_stable {α : Type} (r : α → α → Prop)
    [DecidableRel r] :
    ∀ (l1 : List α) (x : α) (l2 : List α),
      (∀ y ∈ l1, ¬ r y x) → (∀ y ∈ l2, r x y) →
      ∃ t, List.insertionSort r (l1 ++ x :: l2) = x :: t := by
  intro l1
  induction l1 with
  | nil =>
    intro x l2 h1 h2
    simp only [List.nil_append, List.insertionSort]
    cases hrec : List.insertionSort r l2 with
    | nil => exact ⟨[], rfl⟩
    | cons b tb =>
      have hb : b ∈ l2 := by
        have hmem : b ∈ List.insertionSort r l2 := by
          rw [hrec]; exact List.mem_cons_self _ _
        exact (List.perm_insertionSort r l2).mem_iff.mp hmem
      refine ⟨b :: tb, ?_⟩
      simp only [List.orderedInsert]
      rw [if_pos (h2 b hb)]
  | cons y l1' ih =>
    intro x l2 h1 h2
    have h1' : ∀ z ∈ l1', ¬ r z x := fun z hz => h1 z (List.mem_cons_of_mem _ hz)
    obtain ⟨t, htt⟩ := ih x l2 h1' h2
    simp only [List.cons_append, List.insertionSort, List.append_eq]
    rw [htt]
    simp only [List.orderedInsert]
    rw [if_neg (h1 y (List.mem_cons_self _ _))]
    exact ⟨List.orderedInsert r y t, rfl⟩

/-! ### The claims -/

/-- C1: the claim says `choose_date_for_section` searches exactly the
previous, current and next calendar month.  The code computes the
"previous month" as `first_of_month - 31 days`, which lands two months
back whenever the previous month is shorter than 31 days.  Evaluation at
the failing input `target_weekday = 6` (Sunday), `target_day = 30`,
`today = 2023-05-15`: the candidate list is empty (April is never
examined: the offset `-1` probe lands in March), so the fallback returns
2023-05-30 — a Tuesday — although the previous calendar month contains
2023-04-30, a valid Sunday the 30th, which the claimed candidate
enumeration would keep and return. -/
theorem C1_month_window_bug :
    sectionCandidates 6 30 ⟨2023, 5, 15⟩ = [] ∧
    choose_date_for_section 6 30 ⟨2023, 5, 15⟩ = ⟨2023, 5, 30⟩ ∧
    Date.weekday ⟨2023, 5, 30⟩ = 1 ∧
    mkDate 2023 4 30 = some ⟨2023, 4, 30⟩ ∧
    Date.weekday ⟨2023, 4, 30⟩ = 6 := by
  refine ⟨by decide, by decide, by decide, by decide, by decide⟩

/-- C2: the claim says the core parse never raises on malformed input,
naming `99:99` explicitly.  But `TIME_RE` accepts any `\d{2}:\d{2}`, and
`time(99, 99)` then raises `ValueError` — evaluated here on the lines
`["Programación de Jueves 1", "99:99"]`. -/
theorem C2_malformed_time_raises :
    parse_schedule ["Programación de Jueves 1", "99:99"] ⟨2024, 2, 15⟩ =
      .error .hourOutOfRange := rfl

/-- C3 (counterexample): the claim says a line is classified as a time
marker exactly when its two-digit hour is 00-23 and minute 00-59, so
`24:00` would not be a time marker and would be silently ignored.  In
fact the pattern has no range check: `24:00` after a recognized header is
consumed by the time branch and the `time()` constructor raises. -/
theorem C3_time_marker_range_counterexample :
    timeMatch ("24:00") = some (24, 0) ∧
    parse_schedule ["Programación de Lunes 5", "24:00"] ⟨2024, 2, 15⟩ =
      .error .hourOutOfRange :=
  ⟨rfl, rfl⟩

/-- C3 (amended): a line is classified as a time marker exactly when it
matches `\d{2}:\d{2}` optionally surrounded by whitespace — with no range
check — and `current_date` is set.  On recognition, an in-range time is
stored as `pending_start_time`, overwriting any prior pending value (the
conclusion does not depend on the prior `pendOld`); without
`current_date` the same line is ignored and the state is unchanged. -/
theorem C3_time_marker_recognition :
    (∀ (today d : Date) (hh mm : Nat) (ln : String) (rest : List String)
        (pendOld : Option Time),
        sectionSearch ln = none → timeMatch ln = some (hh, mm) →
        hh ≤ 23 → mm ≤ 59 →
        parseLoop today (ln :: rest) (some d) pendOld =
          parseLoop today rest (some d) (some ⟨hh, mm⟩)) ∧
    (∀ (today : Date) (hh mm : Nat) (ln : String) (rest : List String)
        (pendOld : Option Time),
        sectionSearch ln = none → timeMatch ln = some (hh, mm) →
        parseLoop today (ln :: rest) none pendOld =
          parseLoop today rest none pendOld) := by
  constructor
  · intro today d hh mm ln rest pendOld hsec htm hhh hmm
    rw [parseLoop_cons]
    unfold stepLine
    simp only [hsec, htm]
    have hmk : mkTime hh mm = .ok ⟨hh, mm⟩ := by
      unfold mkTime
      rw [if_neg (by omega), if_neg (by omega)]
    simp only [hmk]
    cases parseLoop today rest (some d) (some ⟨hh, mm⟩) <;> rfl
  · intro today hh mm ln rest pendOld hsec htm
    rw [parseLoop_cons]
    unfold stepLine
    simp only [hsec, htm]
    unfold titleStep
    cases pendOld with
    | none => cases parseLoop today rest none none <;> rfl
    | some t => cases parseLoop today rest none (some t) <;> rfl

/-- C3 (witness): the time marker `07:30` inside an active section
overwrites a pending `05:00`. -/
theorem C3_time_marker_witness :
    parseLoop ⟨2024, 2, 15⟩ ["07:30"] (some ⟨2024, 2, 1⟩) (some ⟨5, 0⟩) =
      parseLoop ⟨2024, 2, 15⟩ [] (some ⟨2024, 2, 1⟩) (some ⟨7, 30⟩) :=
  C3_time_marker_recognition.1 ⟨2024, 2, 15⟩ ⟨2024, 2, 1⟩ 7 30 ("07:30") []
    (some ⟨5, 0⟩) rfl rfl (by omega) (by omega)

/-- C4: for normalized input (non-blank lines, the §6 input contract)
whose finalized list is non-empty, the last entry's stop is 00:00:00 of
the calendar day immediately following that entry's start date (the
`day` field of a `DateTime` is the date's ordinal, so `day + 1` is the
next calendar day). -/
theorem C4_last_entry_rollover {lines : List String} {today : Date}
    {ps : List Programme} {p : Programme}
    (hlines : ∀ l ∈ lines, l ≠ "")
    (hok : parse_schedule lines today = .ok ps)
    (hlast : ps.getLast? = some p) :
    p.stop = ⟨p.start.day + 1, 0, 0⟩ := by
  unfold parse_schedule at hok
  cases hloop : parseLoop today lines none none with
  | error e => rw [hloop] at hok; cases hok
  | ok ls =>
    rw [hloop] at hok
    injection hok with h2
    subst h2
    have htitles : ∀ q ∈ ls, q.title ≠ "" := parseLoop_titles hlines _ _ _ hloop
    have hsorted : List.Sorted startLE (List.insertionSort startLE ls) :=
      List.sorted_insertionSort startLE ls
    have htitles2 : ∀ q ∈ List.insertionSort startLE ls, q.title ≠ "" :=
      fun q hq => htitles q ((List.perm_insertionSort startLE ls).mem_iff.mp hq)
    rw [finalize_eq_filter] at hlast
    exact getLast_filter_assign hsorted htitles2 p hlast

/-- C4 (witness): a one-programme parse whose entry starts on ordinal day
19754 (2024-02-01) at 08:00 and stops at midnight of day 19755. -/
theorem C4_last_entry_rollover_witness :
    (⟨⟨19754, 8, 0⟩, ⟨19755, 0, 0⟩, "Morning News"⟩ : Programme).stop =
      ⟨(⟨⟨19754, 8, 0⟩, ⟨19755, 0, 0⟩, "Morning News"⟩ : Programme).start.day + 1,
        0, 0⟩ :=
  @C4_last_entry_rollover ["Programación de Jueves 1", "08:00", "Morning News"]
    ⟨2024, 2, 15⟩ [⟨⟨19754, 8, 0⟩, ⟨19755, 0, 0⟩, "Morning News"⟩]
    ⟨⟨19754, 8, 0⟩, ⟨19755, 0, 0⟩, "Morning News"⟩
    (by decide) rfl rfl

/-- C5: every entry of a finalized list has stop strictly after start and
a non-empty title — the degeneracy filter enforces both and the dedup
pass only removes elements. -/
theorem C5_non_degenerate {lines : List String} {today : Date}
    {ps : List Programme}
    (hok : parse_schedule lines today = .ok ps) :
    ∀ p ∈ ps, dtLT p.start p.stop ∧ p.title ≠ "" := by
  unfold parse_schedule at hok
  cases hloop : parseLoop today lines none none with
  | error e => rw [hloop] at hok; cases hok
  | ok ls =>
    rw [hloop] at hok
    injection hok with h2
    subst h2
    intro p hp
    have h := keep_of_mem_finalize hp
    exact ⟨h.2, h.1⟩

/-- C5 (witness): the single finalized entry of a concrete parse is
non-degenerate. -/
theorem C5_non_degenerate_witness :
    dtLT (⟨⟨19755, 10, 0⟩, ⟨19756, 0, 0⟩, "Noticias"⟩ : Programme).start
        (⟨⟨19755, 10, 0⟩, ⟨19756, 0, 0⟩, "Noticias"⟩ : Programme).stop ∧
      (⟨⟨19755, 10, 0⟩, ⟨19756, 0, 0⟩, "Noticias"⟩ : Programme).title ≠ "" :=
  @C5_non_degenerate ["Programación de Viernes 2", "10:00", "Noticias"]
    ⟨2024, 2, 15⟩ [⟨⟨19755, 10, 0⟩, ⟨19756, 0, 0⟩, "Noticias"⟩] rfl
    ⟨⟨19755, 10, 0⟩, ⟨19756, 0, 0⟩, "Noticias"⟩ (List.mem_singleton_self _)

/-- C6: when the candidate list decomposes as
`l1 ++ c1 :: (l2 ++ c2 :: l3)` with `c1` and `c2` tied at the minimal
absolute day-distance from `today` and everything enumerated before `c1`
strictly farther, `choose_date_for_section` returns `c1`, the tied
candidate enumerated first (month offsets are enumerated -1, 0, +1):
Python's stable sort keeps enumeration order among ties and the code
takes element 0. -/
theorem C6_tie_break_first_enumerated (w d : Int) (today : Date)
    (l1 l2 l3 : List Date) (c1 c2 : Date)
    (hdec : sectionCandidates w d today = l1 ++ c1 :: (l2 ++ c2 :: l3))
    (htie : distToday today c1 = distToday today c2)
    (hfirst : ∀ y ∈ l1, distToday today c1 < distToday today y)
    (hmin : ∀ y ∈ sectionCandidates w d today,
      distToday today c1 ≤ distToday today y) :
    choose_date_for_section w d today = c1 := by
  have h1 : ∀ y ∈ l1, ¬ candLE today y c1 := by
    intro y hy
    have hlt := hfirst y hy
    unfold candLE distToday at *
    omega
  have h2 : ∀ y ∈ l2 ++ c2 :: l3, candLE today c1 y := by
    intro y hy
    refine hmin y ?_
    rw [hdec]
    exact List.mem_append_right _ (List.mem_cons_of_mem _ hy)
  obtain ⟨t, ht⟩ :=
    insertionSort_head_stable (candLE today) l1 c1 (l2 ++ c2 :: l3) h1 h2
  unfold choose_date_for_section
  simp only [hdec]
  rw [if_neg (by simp), ht, List.headD_cons]

/-- C6 (witness): with `today = 2023-02-15`, `target_weekday = 2`
(Wednesday) and `target_day = 1`, both 2023-02-01 and 2023-03-01 survive
at distance 14; the first enumerated (the current-month candidate) is
returned. -/
theorem C6_tie_break_witness :
    choose_date_for_section 2 1 ⟨2023, 2, 15⟩ = ⟨2023, 2, 1⟩ :=
  C6_tie_break_first_enumerated 2 1 ⟨2023, 2, 15⟩ [] [] [] ⟨2023, 2, 1⟩
    ⟨2023, 3, 1⟩ (by decide) (by decide) (by simp) (by decide)

/-- C7: when no candidate matches both the day-of-month and the weekday
constraint (the candidate list is empty), `choose_date_for_section`
returns the date with today's year and month and day `target_day` when
that date exists, and `today` unchanged otherwise; in particular it
always produces a date. -/
theorem C7_fallback_today_month (w d : Int) (today : Date)
    (hempty : sectionCandidates w d today = []) :
    choose_date_for_section w d today =
      (mkDate today.year today.month d).getD today := by
  unfold choose_date_for_section
  simp only [hempty]
  have hnil : ([] : List Date).isEmpty = true := rfl
  rw [if_pos hnil]
  cases mkDate today.year today.month d <;> rfl

/-- C7 (witness): with `today = 2023-02-10`, `target_weekday = 0` and
`target_day = 31` no candidate survives and day 31 does not exist in
February, so `today` itself is returned. -/
theorem C7_fallback_witness :
    choose_date_for_section 0 31 ⟨2023, 2, 10⟩ = ⟨2023, 2, 10⟩ :=
  (C7_fallback_today_month 0 31 ⟨2023, 2, 10⟩ (by decide)).trans rfl

/-- C8: finalization is idempotent on the lists it actually receives —
provisional lists whose titles are non-empty (§3 data model: a title is
non-empty text; the parser builds titles from non-blank lines).
Re-finalizing an already-finalized list changes nothing: the list is
already sorted, the stop re-assignment reproduces the existing stops, the
filter keeps everything, and the dedup removes nothing. -/
theorem C8_finalize_idempotent {ps : List Programme}
    (ht : ∀ p ∈ ps, p.title ≠ "") :
    finalize (finalize ps) = finalize ps :=
  finalize_idem_core ht

/-- C8 (witness): idempotence on a concrete unsorted two-entry list. -/
theorem C8_finalize_idempotent_witness :
    finalize (finalize
        [⟨⟨10, 12, 0⟩, ⟨10, 12, 0⟩, "B"⟩, ⟨⟨10, 9, 30⟩, ⟨10, 9, 30⟩, "A"⟩]) =
      finalize
        [⟨⟨10, 12, 0⟩, ⟨10, 12, 0⟩, "B"⟩, ⟨⟨10, 9, 30⟩, ⟨10, 9, 30⟩, "A"⟩] :=
  @C8_finalize_idempotent
    [⟨⟨10, 12, 0⟩, ⟨10, 12, 0⟩, "B"⟩, ⟨⟨10, 9, 30⟩, ⟨10, 9, 30⟩, "A"⟩]
    (by decide)

/-- C9: for every provisional list, after sorting, stop assignment and
the degeneracy filter the kept entries have strictly increasing starts,
so the `(start, stop, title)` keys are pairwise distinct, the dedup pass
removes nothing, and the finalization pipeline returns exactly the
filtered list. -/
theorem C9_dedup_removes_nothing (ps : List Programme) :
    List.Chain' startLT
        ((assignStops (List.insertionSort startLE ps)).filter keepB) ∧
      ((assignStops (List.insertionSort startLE ps)).filter keepB).Pairwise
        (fun a b => a ≠ b) ∧
      dedupAux [] ((assignStops (List.insertionSort startLE ps)).filter keepB) =
        (assignStops (List.insertionSort startLE ps)).filter keepB ∧
      finalize ps =
        (assignStops (List.insertionSort startLE ps)).filter keepB := by
  have hchain := chainLT_filter_assign (List.sorted_insertionSort startLE ps)
  exact ⟨hchain, pairwise_ne_of_chainLT hchain,
    dedup_eq_self_of_chainLT hchain, finalize_eq_filter ps⟩

/-- C10: the defensive time-shaped-title guard is unreachable — the
parser with the guard and the parser with the guard removed produce the
same result on every input and every ambient date.  (A line matching the
time pattern while `current_date` and `pending_start_time` are both set
is always consumed by the earlier time-marker branch, so the title
branch only ever sees non-time-shaped lines.) -/
theorem C10_guard_unreachable (lines : List String) (today : Date) :
    parse_schedule lines today = parse_schedule_noguard lines today := by
  unfold parse_schedule parse_schedule_noguard
  rw [parseLoop_eq_noguard]
